import Mathlib

/-!
Verification of the chunking core of the repository (src/processing/data_chunking.py).

The embedding models Python strings as `List Char` and Python `int` as `Int`.
Python slice / `str.rfind` index normalisation (negative indices counted from the
end of the string, out-of-range indices clamped) is modelled by `pyNorm`.
The `while` loop of `sliding_window_chunk` is embedded with explicit fuel,
because the source loop does not terminate on all inputs; `PyResult.timeout`
marks fuel exhaustion, `PyResult.error` models a raised `ValueError`.
`str.strip()` is modelled over the ASCII whitespace characters
(space, tab, newline, carriage return, vertical tab, form feed).
-/

namespace DataChunking

/-- Result of running a Python function: a raised error, a run that did not
finish within the supplied fuel, or a normal return value. -/
inductive PyResult (α : Type) where
  | error (msg : String)
  | timeout
  | ok (val : α)
deriving DecidableEq

/-- `true` exactly on the `error` constructor. -/
def PyResult.isError {α : Type} : PyResult α → Bool
  | .error _ => true
  | _ => false

/-- ASCII whitespace, as recognised by Python `str.strip()` on ASCII text. -/
def pyIsSpace (c : Char) : Bool :=
  c == ' ' || c == '\t' || c == '\n' || c == '\r' || c == Char.ofNat 11 || c == Char.ofNat 12

/-- Python `s.strip()`: drop leading and trailing whitespace. -/
def pyStrip (t : List Char) : List Char :=
  ((t.dropWhile pyIsSpace).reverse.dropWhile pyIsSpace).reverse

/-- Python slice-index normalisation for a string of length `L`: a negative
index counts from the end of the string (clamped at 0), a nonnegative index is
clamped at `L`. -/
def pyNorm (L : Nat) (i : Int) : Nat :=
  if i < 0 then ((L : Int) + i).toNat else min i.toNat L

/-- Python `t[a:b]` on a string modelled as a list of characters. -/
def pySlice (t : List Char) (a b : Int) : List Char :=
  (t.take (pyNorm t.length b)).drop (pyNorm t.length a)

/-- Does `pat` occur in `t` starting at (0-based) position `i`? -/
def matchAt (t pat : List Char) (i : Nat) : Bool :=
  (t.drop i).take pat.length == pat

/-- Scan candidate positions `k, k-1, ..., lo` for the rightmost match of
`pat`; `-1` when there is none (Python's not-found sentinel). -/
def rfindFrom (t pat : List Char) (lo : Nat) : Nat → Int
  | 0 => if lo = 0 ∧ matchAt t pat 0 then 0 else -1
  | k+1 => if k + 1 < lo then -1
      else if matchAt t pat (k+1) then ((k : Int) + 1)
      else rfindFrom t pat lo k

/-- Python `t.rfind(pat, a, b)`: highest index `j` with `lo ≤ j`,
`j + pat.length ≤ hi` and `pat` occurring at `j`, where `lo`, `hi` are the
normalised bounds; `-1` when there is none. -/
def pyRfind (t pat : List Char) (a b : Int) : Int :=
  let lo := pyNorm t.length a
  let hi := pyNorm t.length b
  if hi < pat.length then -1 else rfindFrom t pat lo (hi - pat.length)

/-- The break-point search of `sliding_window_chunk` for a window
`[start, e)` whose naive end `e` falls short of the text end: first a
paragraph break, then a single newline, then the sentence terminators
`". "`, `"? "`, `"! "` in that order. Mirrors lines 69-79 of the source. -/
def breakPoint (t : List Char) (start e : Int) : Int :=
  let bp1 := pyRfind t ['\n', '\n'] start e
  let bp2 := if bp1 = -1 ∨ bp1 ≤ start then pyRfind t ['\n'] start e else bp1
  if bp2 = -1 ∨ bp2 ≤ start then
    let b1 := pyRfind t ['.', ' '] start e
    if b1 > start then b1 + 1
    else
      let b2 := pyRfind t ['?', ' '] start e
      if b2 > start then b2 + 1
      else
        let b3 := pyRfind t ['!', ' '] start e
        if b3 > start then b3 + 1
        else bp2
  else bp2

/-- The window end chosen by one iteration of the loop: the naive end
`min (start + chunk_size) len`, moved to the break point when the naive end
is strictly before the text end and the break point lies strictly after
`start`. Mirrors lines 64-81 of the source. -/
def nextEnd (t : List Char) (cs start : Int) : Int :=
  let L : Int := t.length
  let e0 := min (start + cs) L
  if e0 < L then
    let bp := breakPoint t start e0
    if bp > start then bp else e0
  else e0

/-- The cursor position for the next iteration: `end - overlap` when the
window stopped before the text end, otherwise the text length (which exits
the loop). Mirrors line 95 of the source. -/
def nextStart (t : List Char) (cs ov start : Int) : Int :=
  let e := nextEnd t cs start
  if e < (t.length : Int) then e - ov else (t.length : Int)

/-- One raw window recorded by the splitter: its trimmed content, the
untrimmed slice boundaries and the running chunk index. -/
structure RawChunk where
  content : List Char
  start_char : Int
  end_char : Int
  chunk_index : Nat
deriving DecidableEq

/-- The `while start < text_length` loop of `sliding_window_chunk`
(lines 63-95 of the source), with explicit fuel; `none` when the fuel runs
out before the loop exits. -/
def chunkLoop (t : List Char) (cs ov : Int) : Nat → Int → Nat → Option (List RawChunk)
  | 0, _, _ => none
  | fuel+1, start, idx =>
    if start < (t.length : Int) then
      let e := nextEnd t cs start
      let c := pyStrip (pySlice t start e)
      let s := if e < (t.length : Int) then e - ov else (t.length : Int)
      if c.isEmpty then chunkLoop t cs ov fuel s idx
      else (chunkLoop t cs ov fuel s (idx + 1)).map (fun rest => ⟨c, start, e, idx⟩ :: rest)
    else some []

/-- `sliding_window_chunk(text, chunk_size, overlap)` (lines 34-97 of the
source): parameter validation, the empty / whitespace-only shortcut, then
the windowing loop. -/
def sliding_window_chunk (fuel : Nat) (text : List Char) (cs ov : Int) :
    PyResult (List RawChunk) :=
  if cs ≤ 0 then .error "chunk_size must be positive"
  else if ov < 0 ∨ ov ≥ cs then .error "overlap must be >= 0 and < chunk_size"
  else if text.isEmpty || (pyStrip text).isEmpty then .ok []
  else match chunkLoop text cs ov fuel 0 0 with
    | some cks => .ok cks
    | none => .timeout

/-- The sequence of raw `(start, end)` windows the loop walks through,
including the windows whose content trims to whitespace and is dropped;
same control flow as `chunkLoop`. -/
def windowLoop (t : List Char) (cs ov : Int) : Nat → Int → Option (List (Int × Int))
  | 0, _ => none
  | fuel+1, start =>
    if start < (t.length : Int) then
      let e := nextEnd t cs start
      let s := if e < (t.length : Int) then e - ov else (t.length : Int)
      (windowLoop t cs ov fuel s).map (fun rest => (start, e) :: rest)
    else some []

/-- A Python value stored in a document mapping or a chunk field: frontmatter
metadata is heterogeneous, so values are a tagged variant (§9 of the spec).
`null` models Python `None`. -/
inductive Val where
  | str (s : List Char)
  | int (n : Int)
  | bool (b : Bool)
  | list (xs : List Val)
  | dict (fields : List (String × Val))
  | null

/-- Python truthiness (`if not content`) for the modelled values. -/
def pyTruthy : Val → Bool
  | .str s => !s.isEmpty
  | .int n => !(n == 0)
  | .bool b => b
  | .list xs => !xs.isEmpty
  | .dict fs => !fs.isEmpty
  | .null => false

/-- A Python dict modelled as an association list in insertion order with
(assumed) unique keys. -/
abbrev PyDict := List (String × Val)

/-- Python `d.get(k)`: the value of the first binding of `k`, if any. -/
def pyGet (d : PyDict) (k : String) : Option Val :=
  match d with
  | [] => none
  | (q, v) :: rest => if q = k then some v else pyGet rest k

/-- Python `d.update({k: v})` for a single key: replace the value in place
when `k` is already bound, otherwise append the new binding. -/
def pyUpdateOne (d : PyDict) (k : String) (v : Val) : PyDict :=
  if k ∈ d.map Prod.fst then
    d.map (fun kv => if kv.1 = k then (k, v) else kv)
  else d ++ [(k, v)]

/-- Python `d.update(other)`: fold `pyUpdateOne` over `other` in order. -/
def pyUpdate (d other : PyDict) : PyDict :=
  other.foldl (fun acc kv => pyUpdateOne acc kv.1 kv.2) d

/-- Python `del d[k]`: drop every binding of `k`. -/
def pyDel (d : PyDict) (k : String) : PyDict :=
  d.filter (fun kv => decide (kv.1 ≠ k))

/-- The `Chunk` dataclass (lines 12-22 of the source). `title` is a `Val`
(`.null` models Python `None`); `metadata` is `none` for Python `None`. -/
structure Chunk where
  content : List Char
  start_char : Int
  end_char : Int
  chunk_index : Nat
  filename : Val
  title : Val
  metadata : Option PyDict

/-- `dataclasses.asdict` on a `Chunk`: all seven fields in declaration
order, the `metadata` field as a dict value (or null). -/
def Chunk.asdict (c : Chunk) : PyDict :=
  [("content", .str c.content), ("start_char", .int c.start_char),
   ("end_char", .int c.end_char), ("chunk_index", .int c.chunk_index),
   ("filename", c.filename), ("title", c.title),
   ("metadata", match c.metadata with | none => .null | some m => .dict m)]

/-- `Chunk.to_dict` (lines 24-31 of the source): start from `asdict`; when
`self.metadata` is truthy (not `None` and not empty), merge the metadata
into the result and delete the `metadata` key. -/
def Chunk.to_dict (c : Chunk) : PyDict :=
  let result := c.asdict
  match c.metadata with
  | some m => if !m.isEmpty then pyDel (pyUpdate result m) "metadata" else result
  | none => result

/-- The metadata collected for one document (lines 130-133 of the source):
every field except `content`, `filename` and `title`, in document order. -/
def docMetadata (doc : PyDict) : PyDict :=
  doc.filter (fun kv => decide (kv.1 ∉ ["content", "filename", "title"]))

/-- The body of the `for doc in documents` loop of `process_documents`
(lines 119-148 of the source) for a single document: skip falsy content,
run the splitter, then build fully populated chunks. Truthy non-string
content would crash in `text.strip()` inside the splitter; that is modelled
as an error. -/
def processDoc (fuel : Nat) (cs ov : Int) (doc : PyDict) : PyResult (List Chunk) :=
  let content := (pyGet doc "content").getD (.str [])
  if pyTruthy content then
    match content with
    | .str s =>
      match sliding_window_chunk fuel s cs ov with
      | .error m => .error m
      | .timeout => .timeout
      | .ok raws =>
        let filename := (pyGet doc "filename").getD (.str "unknown".toList)
        let title := (pyGet doc "title").getD .null
        let meta := docMetadata doc
        .ok (raws.map fun r =>
          ⟨r.content, r.start_char, r.end_char, r.chunk_index, filename, title,
            if meta.isEmpty then none else some meta⟩)
    | _ => .error "AttributeError: content has no attribute strip"
  else .ok []

/-- `process_documents(documents, chunk_size, overlap)` (lines 100-150 of
the source): process the documents in order, concatenating their chunks;
an error or fuel exhaustion on any document aborts the whole call. -/
def process_documents (fuel : Nat) (docs : List PyDict) (cs ov : Int) :
    PyResult (List Chunk) :=
  match docs with
  | [] => .ok []
  | d :: rest =>
    match processDoc fuel cs ov d with
    | .error m => .error m
    | .timeout => .timeout
    | .ok cks =>
      match process_documents fuel rest cs ov with
      | .error m => .error m
      | .timeout => .timeout
      | .ok more => .ok (cks ++ more)

/-- The six fixed keys named by the serialization contract (§4.3). -/
def fixedKeys : List String :=
  ["content", "start_char", "end_char", "chunk_index", "filename", "title"]

/-- The keys `Chunk.to_dict` actually produces: the six fixed keys, plus —
when metadata is truthy — every metadata key not colliding with a field of
`asdict`, and otherwise a trailing `metadata` key. -/
def toDictKeysSpec (c : Chunk) : List String :=
  match c.metadata with
  | some m =>
    if m.isEmpty then fixedKeys ++ ["metadata"]
    else fixedKeys ++ (m.map Prod.fst).filter (fun k => decide (k ∉ fixedKeys ++ ["metadata"]))
  | none => fixedKeys ++ ["metadata"]

/-- The sentence-terminator choice exactly as the spec sentence words it:
scan `". "`, `"? "`, `"! "` in that fixed order, take the first pattern with
any occurrence strictly after `start` (at that pattern's rightmost
occurrence, the window ending right after the punctuation character), and
otherwise keep the naive end `e`. -/
def sentenceBreakSpec (t : List Char) (start e : Int) : Int :=
  match [['.', ' '], ['?', ' '], ['!', ' ']].find? (fun pat => start < pyRfind t pat start e) with
  | some pat => pyRfind t pat start e + 1
  | none => e

theorem pyStrip_nil : pyStrip [] = [] := rfl

theorem pyStrip_ne_nil {c : List Char} (h : pyStrip c ≠ []) : c ≠ [] := by
  intro hc
  exact h (hc ▸ pyStrip_nil)

theorem pyNorm_le (L : Nat) (i : Int) : pyNorm L i ≤ L := by
  unfold pyNorm
  split
  · omega
  · exact min_le_right _ _

theorem pyNorm_of_nonneg {L : Nat} {i : Int} (h0 : 0 ≤ i) (hle : i ≤ (L : Int)) :
    pyNorm L i = i.toNat := by
  unfold pyNorm
  rw [if_neg (by omega)]
  exact min_eq_left (by omega)

theorem pyNorm_of_neg {L : Nat} {i : Int} (h : i < 0) :
    pyNorm L i = ((L : Int) + i).toNat := by
  unfold pyNorm
  rw [if_pos h]

theorem rfindFrom_cases (t pat : List Char) (lo : Nat) :
    ∀ k, rfindFrom t pat lo k = -1 ∨
      ∃ j : Nat, rfindFrom t pat lo k = (j : Int) ∧ lo ≤ j ∧ j ≤ k := by
  intro k
  induction k with
  | zero =>
    simp only [rfindFrom]
    split
    · next h => exact Or.inr ⟨0, rfl, Nat.le_of_eq h.1, Nat.le_refl 0⟩
    · exact Or.inl rfl
  | succ k ih =>
    simp only [rfindFrom]
    split
    · exact Or.inl rfl
    · split
      · next h _ => exact Or.inr ⟨k + 1, rfl, Nat.le_of_not_lt h, Nat.le_refl _⟩
      · rcases ih with h | ⟨j, hj, hlo, hk⟩
        · exact Or.inl h
        · exact Or.inr ⟨j, hj, hlo, Nat.le_succ_of_le hk⟩

theorem rfindFrom_of_lt (t pat : List Char) (lo : Nat) :
    ∀ k, k < lo → rfindFrom t pat lo k = -1 := by
  intro k hk
  cases k with
  | zero =>
    simp only [rfindFrom]
    rw [if_neg]
    intro hc
    omega
  | succ k =>
    simp only [rfindFrom]
    rw [if_pos hk]

theorem pyRfind_cases (t pat : List Char) (a b : Int) :
    pyRfind t pat a b = -1 ∨
      ∃ j : Nat, pyRfind t pat a b = (j : Int) ∧ pyNorm t.length a ≤ j ∧
        j + pat.length ≤ pyNorm t.length b := by
  simp only [pyRfind]
  split
  · exact Or.inl rfl
  · next h =>
    rcases rfindFrom_cases t pat (pyNorm t.length a) (pyNorm t.length b - pat.length)
      with h1 | ⟨j, hj, hlo, hk⟩
    · exact Or.inl h1
    · exact Or.inr ⟨j, hj, hlo, by omega⟩

theorem pyRfind_of_le (t pat : List Char) (a b : Int) (hp : pat ≠ [])
    (h : pyNorm t.length b ≤ pyNorm t.length a) : pyRfind t pat a b = -1 := by
  have hplen : 0 < pat.length := List.length_pos.mpr hp
  simp only [pyRfind]
  split
  · rfl
  · next hlen => exact rfindFrom_of_lt t pat _ _ (by omega)

theorem pySlice_eq_nil_of_le (t : List Char) (a b : Int)
    (h : pyNorm t.length b ≤ pyNorm t.length a) : pySlice t a b = [] := by
  unfold pySlice
  apply List.drop_eq_nil_of_le
  calc (t.take (pyNorm t.length b)).length ≤ pyNorm t.length b := by
        rw [List.length_take]; exact min_le_left _ _
    _ ≤ pyNorm t.length a := h

theorem pyRfind_cases2 (t : List Char) (c1 c2 : Char) (a b : Int) :
    pyRfind t [c1, c2] a b = -1 ∨
      ∃ j : Nat, pyRfind t [c1, c2] a b = (j : Int) ∧ pyNorm t.length a ≤ j ∧
        j + 2 ≤ pyNorm t.length b := by
  rcases pyRfind_cases t [c1, c2] a b with h | ⟨j, hj, hl, hb⟩
  · exact Or.inl h
  · exact Or.inr ⟨j, hj, hl, by simpa using hb⟩

theorem pyRfind_cases1 (t : List Char) (c1 : Char) (a b : Int) :
    pyRfind t [c1] a b = -1 ∨
      ∃ j : Nat, pyRfind t [c1] a b = (j : Int) ∧ pyNorm t.length a ≤ j ∧
        j + 1 ≤ pyNorm t.length b := by
  rcases pyRfind_cases t [c1] a b with h | ⟨j, hj, hl, hb⟩
  · exact Or.inl h
  · exact Or.inr ⟨j, hj, hl, by simpa using hb⟩

set_option maxHeartbeats 1600000 in
/-- When the chosen break point lies strictly after a nonnegative `start`, it
also lies strictly before the naive end `e0` it was searched below. -/
theorem breakPoint_lt (t : List Char) (start e0 : Int) (h0 : 0 ≤ start)
    (he0 : 0 ≤ e0) (heL : e0 ≤ (t.length : Int)) :
    start < breakPoint t start e0 → breakPoint t start e0 < e0 := by
  have hcast : (pyNorm t.length e0 : Int) = e0 := by
    rw [pyNorm_of_nonneg he0 heL]; omega
  simp only [breakPoint]
  rcases pyRfind_cases2 t '\n' '\n' start e0 with h1 | ⟨j1, h1, hl1, hb1⟩ <;>
    rcases pyRfind_cases1 t '\n' start e0 with h2 | ⟨j2, h2, hl2, hb2⟩ <;>
      rcases pyRfind_cases2 t '.' ' ' start e0 with h3 | ⟨j3, h3, hl3, hb3⟩ <;>
        rcases pyRfind_cases2 t '?' ' ' start e0 with h4 | ⟨j4, h4, hl4, hb4⟩ <;>
          rcases pyRfind_cases2 t '!' ' ' start e0 with h5 | ⟨j5, h5, hl5, hb5⟩ <;>
            rw [h1, h2, h3, h4, h5] <;>
              split_ifs <;> omega

/-- For a nonnegative cursor inside the text, the chosen window end lies
strictly after `start`, within `chunk_size` of it, and within the text;
moreover it stops before the text end only when the naive end did. -/
theorem nextEnd_bounds (t : List Char) (cs start : Int) (hcs : 0 < cs)
    (h0 : 0 ≤ start) (hL : start < (t.length : Int)) :
    start < nextEnd t cs start ∧ nextEnd t cs start ≤ start + cs ∧
      nextEnd t cs start ≤ (t.length : Int) ∧
      (nextEnd t cs start < (t.length : Int) → start + cs < (t.length : Int)) := by
  simp only [nextEnd]
  split
  · next he0 =>
    split
    · next hgt =>
      have hlt := breakPoint_lt t start (min (start + cs) (t.length : Int)) h0
        (by omega) (by omega) hgt
      omega
    · next hng => omega
  · next he0 => omega

/-- For a negative cursor reachable under `cs < len(text)`: the bounded
searches all miss (their normalised range is empty), the punctuation
fallback turns the `-1` sentinel into a break point of `0` when
`start < -1`, and the window's slice is empty, so nothing is recorded. -/
theorem nextEnd_neg (t : List Char) (cs ov start : Int) (hov : 0 ≤ ov)
    (hoc : ov < cs) (hneg : start < 0) (hlow : -ov ≤ start)
    (hcsL : cs < (t.length : Int)) :
    nextEnd t cs start = (if start = -1 then start + cs else 0) ∧
      pySlice t start (nextEnd t cs start) = [] := by
  have hlt : start + cs < (t.length : Int) := by omega
  have hpos : 0 < start + cs := by omega
  have hmin : min (start + cs) ((t.length : Int)) = start + cs := min_eq_left (by omega)
  have hna : pyNorm t.length start = ((t.length : Int) + start).toNat := pyNorm_of_neg hneg
  have hnb : pyNorm t.length (start + cs) = (start + cs).toNat :=
    pyNorm_of_nonneg (by omega) (by omega)
  have hle : pyNorm t.length (start + cs) ≤ pyNorm t.length start := by
    rw [hna, hnb]; omega
  have r1 : pyRfind t ['\n', '\n'] start (start + cs) = -1 :=
    pyRfind_of_le t _ start _ (by simp) hle
  have r2 : pyRfind t ['\n'] start (start + cs) = -1 :=
    pyRfind_of_le t _ start _ (by simp) hle
  have r3 : pyRfind t ['.', ' '] start (start + cs) = -1 :=
    pyRfind_of_le t _ start _ (by simp) hle
  have r4 : pyRfind t ['?', ' '] start (start + cs) = -1 :=
    pyRfind_of_le t _ start _ (by simp) hle
  have r5 : pyRfind t ['!', ' '] start (start + cs) = -1 :=
    pyRfind_of_le t _ start _ (by simp) hle
  have hbp : breakPoint t start (start + cs) = (if start = -1 then (-1 : Int) else 0) := by
    simp only [breakPoint, r1, r2, r3, r4, r5]
    split_ifs <;> omega
  have hEeq : nextEnd t cs start = (if start = -1 then start + cs else 0) := by
    simp only [nextEnd, hmin]
    rw [if_pos hlt, hbp]
    split_ifs <;> omega
  refine ⟨hEeq, ?_⟩
  rw [hEeq]
  by_cases hs : start = -1
  · rw [if_pos hs]
    apply pySlice_eq_nil_of_le
    rw [hna, hnb]
    omega
  · rw [if_neg hs]
    apply pySlice_eq_nil_of_le
    rw [hna, pyNorm_of_nonneg (by omega) (by omega)]
    omega

/-- Loop invariant of `sliding_window_chunk`: under valid parameters, every
chunk the loop records has a nonnegative start, a strictly larger end within
the text, and a raw width of at most `chunk_size` — provided the entry
cursor satisfies the reachability invariant (`start < 0` only with
`cs < len(text)` and `start ≥ -overlap`). -/
theorem chunkLoop_sound (t : List Char) (cs ov : Int) (hcs : 0 < cs)
    (hov : 0 ≤ ov) (hoc : ov < cs) :
    ∀ (fuel : Nat) (start : Int) (idx : Nat) (cks : List RawChunk),
      (start < 0 → cs < (t.length : Int) ∧ -ov ≤ start) →
      chunkLoop t cs ov fuel start idx = some cks →
      ∀ c ∈ cks, 0 ≤ c.start_char ∧ c.start_char < c.end_char ∧
        c.end_char ≤ (t.length : Int) ∧ c.end_char - c.start_char ≤ cs := by
  intro fuel
  induction fuel with
  | zero =>
    intro start idx cks _ h
    simp [chunkLoop] at h
  | succ fuel ih =>
    intro start idx cks hinv hloop
    simp only [chunkLoop] at hloop
    by_cases hguard : start < (t.length : Int)
    · rw [if_pos hguard] at hloop
      by_cases hstart : 0 ≤ start
      · obtain ⟨hlt, hlecs, hleL, himp⟩ := nextEnd_bounds t cs start hcs hstart hguard
        have hinv2 : ((if nextEnd t cs start < (t.length : Int) then
              nextEnd t cs start - ov else (t.length : Int)) < 0 →
            cs < (t.length : Int) ∧
              -ov ≤ (if nextEnd t cs start < (t.length : Int) then
                nextEnd t cs start - ov else (t.length : Int))) := by
          by_cases hel : nextEnd t cs start < (t.length : Int)
          · rw [if_pos hel]
            intro hneg
            have := himp hel
            exact ⟨by omega, by omega⟩
          · rw [if_neg hel]
            intro hneg
            omega
        split at hloop
        · exact ih _ idx cks hinv2 hloop
        · rw [Option.map_eq_some'] at hloop
          obtain ⟨rest, hrest, hcons⟩ := hloop
          subst hcons
          intro c hc
          rcases List.mem_cons.mp hc with hhead | htail
          · subst hhead
            exact ⟨hstart, hlt, hleL, show nextEnd t cs start - start ≤ cs by omega⟩
          · exact ih _ (idx + 1) rest hinv2 hrest c htail
      · push_neg at hstart
        obtain ⟨hcsL, hlow⟩ := hinv hstart
        obtain ⟨hEeq, hSlice⟩ := nextEnd_neg t cs ov start hov hoc hstart hlow hcsL
        rw [hSlice] at hloop
        simp only [pyStrip_nil, List.isEmpty_nil, if_pos] at hloop
        have hel : nextEnd t cs start < (t.length : Int) := by
          rw [hEeq]; split_ifs <;> omega
        rw [if_pos hel] at hloop
        apply ih _ idx cks ?_ hloop
        intro hneg
        refine ⟨hcsL, ?_⟩
        rw [hEeq] at hneg ⊢
        by_cases hs : start = -1
        · rw [if_pos hs] at hneg ⊢
          omega
        · rw [if_neg hs] at hneg ⊢
          omega
    · rw [if_neg hguard] at hloop
      simp only [Option.some.injEq] at hloop
      subst hloop
      intro c hc
      cases hc

/-- The chunk indices recorded by the loop continue the entry index without
gaps: a dropped window leaves the counter untouched. -/
theorem chunkLoop_indices (t : List Char) (cs ov : Int) :
    ∀ (fuel : Nat) (start : Int) (idx : Nat) (cks : List RawChunk),
      chunkLoop t cs ov fuel start idx = some cks →
      cks.map RawChunk.chunk_index = List.range' idx cks.length := by
  intro fuel
  induction fuel with
  | zero =>
    intro start idx cks h
    simp [chunkLoop] at h
  | succ fuel ih =>
    intro start idx cks hloop
    simp only [chunkLoop] at hloop
    split at hloop
    · split at hloop
      · exact ih _ _ _ hloop
      · rw [Option.map_eq_some'] at hloop
        obtain ⟨rest, hrest, hcons⟩ := hloop
        subst hcons
        simp only [List.map_cons, List.length_cons]
        rw [ih _ _ _ hrest, List.range'_succ]
    · simp only [Option.some.injEq] at hloop
      subst hloop
      rfl

/-- Every position of the text is inside some raw window the loop walks
through (recorded or dropped), as long as the loop was entered at or before
that position. -/
theorem windowLoop_cover (t : List Char) (cs ov : Int) (hov : 0 ≤ ov) :
    ∀ (fuel : Nat) (start : Int) (ws : List (Int × Int)),
      windowLoop t cs ov fuel start = some ws →
      ∀ p : Nat, start ≤ (p : Int) → p < t.length →
        ∃ w ∈ ws, w.1 ≤ (p : Int) ∧ (p : Int) < w.2 := by
  intro fuel
  induction fuel with
  | zero =>
    intro start ws h
    simp [windowLoop] at h
  | succ fuel ih =>
    intro start ws hw p hsp hp
    simp only [windowLoop] at hw
    split at hw
    · rw [Option.map_eq_some'] at hw
      obtain ⟨rest, hrest, hcons⟩ := hw
      subst hcons
      by_cases hpe : (p : Int) < nextEnd t cs start
      · exact ⟨(start, nextEnd t cs start), List.mem_cons_self _ _, hsp, hpe⟩
      · push_neg at hpe
        have hel : nextEnd t cs start < (t.length : Int) := by omega
        obtain ⟨w, hwmem, hw1, hw2⟩ :=
          ih _ rest hrest p (by rw [if_pos hel]; omega) hp
        exact ⟨w, List.mem_cons_of_mem _ hwmem, hw1, hw2⟩
    · next hguard => omega

/-- With `overlap = 0` the cursor strictly increases, so fuel
`len(text) - start` suffices for the loop to finish. -/
theorem chunkLoop_terminates_ov0 (t : List Char) (cs : Int) (hcs : 0 < cs) :
    ∀ (fuel : Nat) (start : Int) (idx : Nat), 0 ≤ start →
      (t.length : Int) ≤ start + fuel →
      chunkLoop t cs 0 (fuel + 1) start idx ≠ none := by
  intro fuel
  induction fuel with
  | zero =>
    intro start idx h0 hL
    simp only [chunkLoop]
    rw [if_neg (by omega)]
    simp
  | succ fuel ih =>
    intro start idx h0 hL
    simp only [chunkLoop]
    by_cases hguard : start < (t.length : Int)
    · rw [if_pos hguard]
      obtain ⟨hlt, _, hleL, _⟩ := nextEnd_bounds t cs start hcs h0 hguard
      have h0' : 0 ≤ (if nextEnd t cs start < (t.length : Int) then
          nextEnd t cs start - 0 else (t.length : Int)) := by
        split_ifs <;> omega
      have hL' : (t.length : Int) ≤ (if nextEnd t cs start < (t.length : Int) then
          nextEnd t cs start - 0 else (t.length : Int)) + fuel := by
        split_ifs <;> omega
      split
      · exact ih _ idx h0' hL'
      · intro hmap
        rw [Option.map_eq_none'] at hmap
        exact ih _ (idx + 1) h0' hL' hmap
    · rw [if_neg hguard]
      simp

theorem pyUpdateOne_keys_mem {d : PyDict} {k : String}
    (h : k ∈ d.map Prod.fst) (v : Val) :
    (pyUpdateOne d k v).map Prod.fst = d.map Prod.fst := by
  unfold pyUpdateOne
  rw [if_pos h, List.map_map]
  apply List.map_congr_left
  intro kv _
  simp only [Function.comp_apply]
  split
  · next h2 => exact h2.symm
  · rfl

theorem pyUpdateOne_keys_new {d : PyDict} {k : String}
    (h : k ∉ d.map Prod.fst) (v : Val) :
    (pyUpdateOne d k v).map Prod.fst = d.map Prod.fst ++ [k] := by
  unfold pyUpdateOne
  rw [if_neg h, List.map_append]
  rfl

theorem pyUpdate_keys :
    ∀ (m d : PyDict), (m.map Prod.fst).Nodup →
      (pyUpdate d m).map Prod.fst =
        d.map Prod.fst ++
          (m.map Prod.fst).filter (fun k => decide (k ∉ d.map Prod.fst)) := by
  intro m
  induction m with
  | nil =>
    intro d _
    simp [pyUpdate]
  | cons kv m ih =>
    intro d hnd
    obtain ⟨k, v⟩ := kv
    have hstep : pyUpdate d ((k, v) :: m) = pyUpdate (pyUpdateOne d k v) m := rfl
    simp only [List.map_cons, List.nodup_cons] at hnd
    by_cases hc : k ∈ d.map Prod.fst
    · rw [hstep, ih _ hnd.2, pyUpdateOne_keys_mem hc]
      simp only [List.map_cons, List.filter_cons]
      rw [if_neg (by simp [hc])]
    · rw [hstep, ih _ hnd.2, pyUpdateOne_keys_new hc]
      simp only [List.map_cons, List.filter_cons]
      rw [if_pos (by simp [hc])]
      have hfeq : (m.map Prod.fst).filter
            (fun q => decide (q ∉ (d.map Prod.fst ++ [k]))) =
          (m.map Prod.fst).filter (fun q => decide (q ∉ d.map Prod.fst)) := by
        apply List.filter_congr
        intro q hq
        have hqk : q ≠ k := fun hqe => hnd.1 (hqe ▸ hq)
        simp [List.mem_append, hqk]
      rw [hfeq, List.append_assoc, List.singleton_append]

theorem pyGet_map_replace (k : String) (v : Val) :
    ∀ d : PyDict, k ∈ d.map Prod.fst →
      pyGet (d.map (fun kv => if kv.1 = k then (k, v) else kv)) k = some v := by
  intro d
  induction d with
  | nil => intro h; simp at h
  | cons kv rest ih =>
    intro h
    simp only [List.map_cons, List.mem_cons] at h
    simp only [List.map_cons]
    by_cases hkv : kv.1 = k
    · rw [if_pos hkv]
      simp [pyGet]
    · rw [if_neg hkv]
      simp only [pyGet, if_neg hkv]
      apply ih
      rcases h with h1 | h2
      · exact absurd h1.symm hkv
      · exact h2

theorem pyGet_map_replace_other (k q : String) (v : Val) (hne : q ≠ k) :
    ∀ d : PyDict,
      pyGet (d.map (fun kv => if kv.1 = k then (k, v) else kv)) q = pyGet d q := by
  intro d
  induction d with
  | nil => rfl
  | cons kv rest ih =>
    simp only [List.map_cons]
    by_cases hkv : kv.1 = k
    · rw [if_pos hkv]
      have h1 : ¬ (k = q) := fun h => hne h.symm
      have h2 : ¬ (kv.1 = q) := by rw [hkv]; exact h1
      simp only [pyGet, if_neg h1, if_neg h2]
      exact ih
    · rw [if_neg hkv]
      simp only [pyGet]
      split
      · rfl
      · exact ih

theorem pyGet_append_single (k : String) (v : Val) :
    ∀ d : PyDict, k ∉ d.map Prod.fst → pyGet (d ++ [(k, v)]) k = some v := by
  intro d
  induction d with
  | nil =>
    intro _
    simp [pyGet]
  | cons kv rest ih =>
    intro h
    simp only [List.map_cons, List.mem_cons] at h
    push_neg at h
    simp only [List.cons_append, pyGet, if_neg (fun he : kv.1 = k => h.1 he.symm)]
    exact ih h.2

theorem pyGet_pyUpdateOne_self (d : PyDict) (k : String) (v : Val) :
    pyGet (pyUpdateOne d k v) k = some v := by
  unfold pyUpdateOne
  split
  · next h => exact pyGet_map_replace k v d h
  · next h => exact pyGet_append_single k v d h

theorem pyGet_append_single_other (k q : String) (v : Val) (hne : q ≠ k) :
    ∀ d : PyDict, pyGet (d ++ [(k, v)]) q = pyGet d q := by
  intro d
  induction d with
  | nil => simp [pyGet, if_neg (fun h : k = q => hne h.symm)]
  | cons kv rest ih =>
    simp only [List.cons_append, pyGet]
    split
    · rfl
    · exact ih

theorem pyGet_pyUpdateOne_other (d : PyDict) (k q : String) (v : Val)
    (hne : q ≠ k) : pyGet (pyUpdateOne d k v) q = pyGet d q := by
  unfold pyUpdateOne
  split
  · exact pyGet_map_replace_other k q v hne d
  · exact pyGet_append_single_other k q v hne d

theorem pyGet_pyUpdate_not_mem :
    ∀ (m d : PyDict) (k : String), k ∉ m.map Prod.fst →
      pyGet (pyUpdate d m) k = pyGet d k := by
  intro m
  induction m with
  | nil => intro d k _; rfl
  | cons kv m ih =>
    intro d k hk
    obtain ⟨q, w⟩ := kv
    simp only [List.map_cons, List.mem_cons] at hk
    push_neg at hk
    have hstep : pyUpdate d ((q, w) :: m) = pyUpdate (pyUpdateOne d q w) m := rfl
    rw [hstep, ih _ k hk.2, pyGet_pyUpdateOne_other d q k w hk.1]

theorem pyGet_pyUpdate (m : PyDict) :
    ∀ (d : PyDict) (k : String) (v : Val), (m.map Prod.fst).Nodup →
      pyGet m k = some v → pyGet (pyUpdate d m) k = some v := by
  induction m with
  | nil =>
    intro d k v _ h
    simp [pyGet] at h
  | cons kv m ih =>
    intro d k v hnd h
    obtain ⟨q, w⟩ := kv
    have hstep : pyUpdate d ((q, w) :: m) = pyUpdate (pyUpdateOne d q w) m := rfl
    simp only [List.map_cons, List.nodup_cons] at hnd
    by_cases hqk : q = k
    · subst hqk
      simp only [pyGet, if_pos rfl] at h
      rw [hstep, pyGet_pyUpdate_not_mem m _ q hnd.1, pyGet_pyUpdateOne_self]
      exact h
    · simp only [pyGet, if_neg hqk] at h
      rw [hstep]
      exact ih _ k v hnd.2 h

theorem pyGet_pyDel_other (d : PyDict) (k q : String) (hne : q ≠ k) :
    pyGet (pyDel d k) q = pyGet d q := by
  induction d with
  | nil => rfl
  | cons kv rest ih =>
    simp only [pyDel, List.filter_cons]
    by_cases hkv : kv.1 = k
    · rw [if_neg (by simp [hkv])]
      have : kv.1 ≠ q := fun h => hne (hkv ▸ h.symm ▸ rfl)
      simp only [pyDel] at ih
      rw [ih]
      simp only [pyGet, if_neg this]
    · rw [if_pos (by simp [hkv])]
      simp only [pyGet]
      simp only [pyDel] at ih
      split
      · rfl
      · exact ih

theorem pyDel_keys (d : PyDict) (k : String) :
    (pyDel d k).map Prod.fst = (d.map Prod.fst).filter (fun q => decide (q ≠ k)) := by
  induction d with
  | nil => rfl
  | cons kv rest ih =>
    simp only [pyDel, List.filter_cons, List.map_cons]
    by_cases hkv : kv.1 = k
    · rw [if_neg (by simp [hkv]), if_neg (by simp [hkv])]
      simp only [pyDel] at ih
      exact ih
    · rw [if_pos (by simp [hkv]), if_pos (by simp [hkv])]
      simp only [List.map_cons]
      simp only [pyDel] at ih
      rw [ih]

/-- Offsets and width of every chunk a successful run of the splitter
returns, lifted from the loop invariant to `sliding_window_chunk`. -/
theorem sliding_window_chunk_sound (fuel : Nat) (text : List Char) (cs ov : Int)
    (cks : List RawChunk) (hcs : 0 < cs) (hov : 0 ≤ ov) (hoc : ov < cs)
    (h : sliding_window_chunk fuel text cs ov = .ok cks) :
    ∀ c ∈ cks, 0 ≤ c.start_char ∧ c.start_char < c.end_char ∧
      c.end_char ≤ (text.length : Int) ∧ c.end_char - c.start_char ≤ cs := by
  unfold sliding_window_chunk at h
  split_ifs at h with h1 h2 h3
  · injection h with h
    subst h
    intro c hc
    cases hc
  · split at h
    · next cks0 hck =>
      injection h with h
      subst h
      exact chunkLoop_sound text cs ov hcs hov hoc fuel 0 0 cks0 (by omega) hck
    · exact PyResult.noConfusion h

/-- Chunk indices of a successful run of the splitter are `0, 1, ..., n-1`. -/
theorem sliding_window_chunk_indices (fuel : Nat) (text : List Char) (cs ov : Int)
    (raws : List RawChunk) (h : sliding_window_chunk fuel text cs ov = .ok raws) :
    raws.map RawChunk.chunk_index = List.range raws.length := by
  unfold sliding_window_chunk at h
  split_ifs at h with h1 h2 h3
  · injection h with h
    subst h
    rfl
  · split at h
    · next cks0 hck =>
      injection h with h
      subst h
      rw [chunkLoop_indices _ _ _ _ _ _ _ hck]
      exact (List.range_eq_range' _).symm
    · exact PyResult.noConfusion h

/-- C3: the splitter raises its `InvalidParameter` error exactly when
`chunk_size ≤ 0`, `overlap < 0` or `overlap ≥ chunk_size`; the equivalence
holds uniformly in the text (validation precedes any inspection of it, so
invalid parameters fail even on empty text), and an error result carries no
windows. -/
theorem c3_invalid_parameter_iff (fuel : Nat) (text : List Char) (cs ov : Int) :
    (sliding_window_chunk fuel text cs ov).isError = true ↔
      cs ≤ 0 ∨ ov < 0 ∨ ov ≥ cs := by
  unfold sliding_window_chunk
  split_ifs with h1 h2 h3
  · simp only [PyResult.isError]
    simp
    omega
  · simp only [PyResult.isError]
    simp
    omega
  · simp only [PyResult.isError]
    simp
    omega
  · split
    · simp only [PyResult.isError]
      simp
      omega
    · simp only [PyResult.isError]
      simp
      omega

/-- C5: within one document's output the chunk indices are exactly
`0, 1, ..., n-1` in order; a window that trims to empty is dropped without
consuming an index. -/
theorem c5_chunk_indices_consecutive (fuel : Nat) (cs ov : Int) (doc : PyDict)
    (cks : List Chunk) (h : processDoc fuel cs ov doc = .ok cks) :
    cks.map Chunk.chunk_index = List.range cks.length := by
  simp only [processDoc] at h
  split at h
  · split at h
    · next s hs =>
      split at h
      · exact PyResult.noConfusion h
      · exact PyResult.noConfusion h
      · next raws hraws =>
        injection h with h
        subst h
        rw [List.map_map, List.length_map]
        refine Eq.trans (List.map_congr_left ?_)
          (sliding_window_chunk_indices fuel s cs ov raws hraws)
        intro r _
        rfl
    · exact PyResult.noConfusion h
  · injection h with h
    subst h
    rfl

/-- Witness for C5 at a concrete document that splits into three chunks. -/
theorem c5_chunk_indices_consecutive_witness :
    List.map Chunk.chunk_index
        [(⟨"abc".toList, 0, 3, 0, Val.str "unknown".toList, Val.null, none⟩ : Chunk),
         ⟨"cde".toList, 2, 5, 1, Val.str "unknown".toList, Val.null, none⟩,
         ⟨"ef".toList, 4, 6, 2, Val.str "unknown".toList, Val.null, none⟩] =
      List.range 3 :=
  c5_chunk_indices_consecutive 10 3 1 [("content", Val.str "abcdef".toList)] _ rfl

/-- C7: every chunk returned under valid parameters spans at most
`chunk_size` raw characters: `end_char - start_char ≤ chunk_size`. -/
theorem c7_window_size_bound (fuel : Nat) (text : List Char) (cs ov : Int)
    (cks : List RawChunk) (c : RawChunk) (hcs : 0 < cs) (hov : 0 ≤ ov)
    (hoc : ov < cs) (h : sliding_window_chunk fuel text cs ov = .ok cks)
    (hc : c ∈ cks) : c.end_char - c.start_char ≤ cs :=
  (sliding_window_chunk_sound fuel text cs ov cks hcs hov hoc h c hc).2.2.2

/-- Witness for C7 on a concrete three-chunk run. -/
theorem c7_window_size_bound_witness :
    (3 : Int) - 0 ≤ 3 :=
  c7_window_size_bound 10 ("abcdef".toList) 3 1
    [⟨"abc".toList, 0, 3, 0⟩, ⟨"cde".toList, 2, 5, 1⟩, ⟨"ef".toList, 4, 6, 2⟩]
    ⟨"abc".toList, 0, 3, 0⟩ (by decide) (by decide) (by decide) (by decide) (by decide)

/-- C10: every chunk returned under valid parameters has well-formed
offsets `0 ≤ start_char < end_char ≤ len(text)`; in particular no chunk is
ever recorded while the (possibly transiently negative) cursor is below 0. -/
theorem c10_offsets_well_formed (fuel : Nat) (text : List Char) (cs ov : Int)
    (cks : List RawChunk) (c : RawChunk) (hcs : 0 < cs) (hov : 0 ≤ ov)
    (hoc : ov < cs) (h : sliding_window_chunk fuel text cs ov = .ok cks)
    (hc : c ∈ cks) :
    0 ≤ c.start_char ∧ c.start_char < c.end_char ∧
      c.end_char ≤ (text.length : Int) := by
  obtain ⟨h1, h2, h3, _⟩ := sliding_window_chunk_sound fuel text cs ov cks hcs hov hoc h c hc
  exact ⟨h1, h2, h3⟩

/-- Witness for C10 on a run whose cursor transiently reaches `-1`:
`"a\nbcdefghij"` with `chunk_size 10`, `overlap 2`. -/
theorem c10_offsets_well_formed_witness :
    (0 : Int) ≤ 0 ∧ (0 : Int) < 1 ∧ (1 : Int) ≤ (("a\nbcdefghij".toList).length : Int) :=
  c10_offsets_well_formed 20 ("a\nbcdefghij".toList) 10 2
    [⟨"a".toList, 0, 1, 0⟩, ⟨"ghij".toList, 7, 11, 1⟩]
    ⟨"a".toList, 0, 1, 0⟩ (by decide) (by decide) (by decide) (by decide) (by decide)

/-- C1 counterexample: on `"ab\ncdefgh"` with `chunk_size 3`, `overlap 2`
the first window breaks at the newline (`end = 2`) and the next cursor is
`2 - 2 = 0`: `start` does not increase, and the loop exhausts any fuel. -/
theorem c1_progress_counterexample :
    nextStart ("ab\ncdefgh".toList) 3 2 0 = 0 ∧
      (0 : Int) < (("ab\ncdefgh".toList).length : Int) ∧
      chunkLoop ("ab\ncdefgh".toList) 3 2 50 0 0 = none := by decide

/-- C1 (amended): with `overlap = 0` the cursor strictly increases on every
iteration, and the splitter terminates within `len(text) + 1` iterations;
with `overlap > 0` a break point at or before `start + overlap` can keep the
cursor from advancing, and the loop need not terminate. -/
theorem c1_progress_amended (text : List Char) (cs ov start : Int)
    (hcs : 0 < cs) (hov : ov = 0) (h0 : 0 ≤ start)
    (hL : start < (text.length : Int)) :
    start < nextStart text cs ov start ∧
      sliding_window_chunk (text.length + 1) text cs ov ≠ .timeout := by
  subst hov
  constructor
  · obtain ⟨hlt, _, hleL, _⟩ := nextEnd_bounds text cs start hcs h0 hL
    simp only [nextStart]
    split_ifs <;> omega
  · unfold sliding_window_chunk
    split_ifs with h1 h2 h3
    · simp
    · simp
    · simp
    · split
      · simp
      · next hnone =>
        exact absurd hnone
          (chunkLoop_terminates_ov0 text cs hcs text.length 0 0 (le_refl 0) (by omega))

/-- Witness for the amended C1 at `"ab"`, `chunk_size 2`, `overlap 0`. -/
theorem c1_progress_amended_witness :
    (0 : Int) < nextStart ("ab".toList) 2 0 0 ∧
      sliding_window_chunk (("ab".toList).length + 1) ("ab".toList) 2 0 ≠ .timeout :=
  c1_progress_amended ("ab".toList) 2 0 0 (by decide) rfl (by decide) (by decide)

/-- C2 counterexample: `" \nAAAAA    "` with `chunk_size 10`, `overlap 2` is
non-empty (and not whitespace-only), yet the splitter returns the empty
sequence — so the returned ranges cannot cover `[0, len(text))`. -/
theorem c2_coverage_counterexample :
    pyStrip (" \nAAAAA    ".toList) ≠ [] ∧
      sliding_window_chunk 10 (" \nAAAAA    ".toList) 10 2 = .ok [] := by decide

/-- C2 (amended): the raw windows the loop walks through — including those
dropped because their content trims to whitespace — cover `[0, len(text))`
with no gaps; the returned subsequence alone may be empty or leave gaps at
dropped whitespace windows. -/
theorem c2_coverage_amended (text : List Char) (cs ov : Int) (fuel : Nat)
    (ws : List (Int × Int)) (p : Nat) (hcs : 0 < cs) (hov : 0 ≤ ov)
    (hoc : ov < cs) (hw : windowLoop text cs ov fuel 0 = some ws)
    (hp : p < text.length) :
    ∃ w ∈ ws, w.1 ≤ (p : Int) ∧ (p : Int) < w.2 :=
  windowLoop_cover text cs ov hov fuel 0 ws hw p (by omega) hp

/-- Witness for the amended C2 at `"ab"`, `chunk_size 2`, `overlap 0`,
position 1. -/
theorem c2_coverage_amended_witness :
    ∃ w ∈ [((0 : Int), (2 : Int))], w.1 ≤ ((1 : Nat) : Int) ∧ ((1 : Nat) : Int) < w.2 :=
  c2_coverage_amended ("ab".toList) 2 0 3 [(0, 2)] 1 (by decide) (by decide)
    (by decide) (by decide) (by decide)

/-- C4: a document whose `content` is missing, empty, or whitespace-only
contributes no chunks and no error: prepending it to any document list
leaves the result of `process_documents` unchanged (under valid
parameters). -/
theorem c4_empty_content_skipped (fuel : Nat) (cs ov : Int) (doc : PyDict)
    (docs : List PyDict) (hcs : 0 < cs) (hov : 0 ≤ ov) (hoc : ov < cs)
    (hdoc : pyGet doc "content" = none ∨ pyGet doc "content" = some (.str []) ∨
      ∃ s : List Char, pyGet doc "content" = some (.str s) ∧ pyStrip s = []) :
    process_documents fuel (doc :: docs) cs ov = process_documents fuel docs cs ov := by
  have hpd : processDoc fuel cs ov doc = .ok [] := by
    unfold processDoc
    rcases hdoc with h | h | ⟨s, h, hs⟩
    · rw [h]
      simp [pyTruthy]
    · rw [h]
      simp [pyTruthy]
    · rw [h]
      simp only [Option.getD_some]
      by_cases hse : s = []
      · subst hse
        simp [pyTruthy]
      · have htr : pyTruthy (Val.str s) = true := by
          simp [pyTruthy, hse]
        rw [if_pos htr]
        unfold sliding_window_chunk
        rw [if_neg (by omega), if_neg (by omega), if_pos (by simp [hs])]
        rfl
  simp only [process_documents, hpd]
  cases hrec : process_documents fuel docs cs ov <;> simp

/-- Witness for C4: a whitespace-only document prepended to the empty list. -/
theorem c4_empty_content_skipped_witness :
    process_documents 3 ([("content", Val.str "   ".toList)] :: []) 5 1 =
      process_documents 3 [] 5 1 :=
  c4_empty_content_skipped 3 5 1 [("content", Val.str "   ".toList)] []
    (by decide) (by decide) (by decide)
    (Or.inr (Or.inr ⟨"   ".toList, rfl, rfl⟩))

/-- C6: when the naive end falls short of the text end and neither the
paragraph-break nor the single-newline search finds a position strictly
after `start`, the chosen end equals the spec's description: scan `". "`,
`"? "`, `"! "` in that fixed order, take the first pattern with any
occurrence strictly after `start` (at that pattern's rightmost occurrence,
ending right after the punctuation character), not the rightmost occurrence
across all three patterns. -/
theorem c6_sentence_break_priority (t : List Char) (cs start : Int)
    (h0 : 0 ≤ start) (hlt : start + cs < (t.length : Int))
    (hp : pyRfind t ['\n', '\n'] start (start + cs) ≤ start)
    (hn : pyRfind t ['\n'] start (start + cs) ≤ start) :
    nextEnd t cs start = sentenceBreakSpec t start (start + cs) := by
  have hmin : min (start + cs) ((t.length : Int)) = start + cs := min_eq_left (by omega)
  simp only [nextEnd, hmin]
  rw [if_pos hlt]
  simp only [breakPoint]
  rw [if_pos (Or.inr hp), if_pos (Or.inr hn)]
  simp only [sentenceBreakSpec]
  by_cases hb1 : start < pyRfind t ['.', ' '] start (start + cs)
  · rw [if_pos hb1, List.find?_cons_of_pos _ (by simpa using hb1), if_pos (by omega)]
  · rw [if_neg hb1, List.find?_cons_of_neg _ (by simpa using hb1)]
    by_cases hb2 : start < pyRfind t ['?', ' '] start (start + cs)
    · rw [if_pos hb2, List.find?_cons_of_pos _ (by simpa using hb2), if_pos (by omega)]
    · rw [if_neg hb2, List.find?_cons_of_neg _ (by simpa using hb2)]
      by_cases hb3 : start < pyRfind t ['!', ' '] start (start + cs)
      · rw [if_pos hb3, List.find?_cons_of_pos _ (by simpa using hb3), if_pos (by omega)]
      · rw [if_neg hb3, List.find?_cons_of_neg _ (by simpa using hb3)]
        simp only [List.find?_nil]
        rw [if_neg (by omega)]

/-- Witness for C6: in `"ab. cdefghij! klmnopq"` with window `[0, 16)`, the
`". "` at position 2 is chosen over the closer-to-the-end `"! "` at 12. -/
theorem c6_sentence_break_priority_witness :
    nextEnd ("ab. cdefghij! klmnopq".toList) 16 0 =
      sentenceBreakSpec ("ab. cdefghij! klmnopq".toList) 0 (0 + 16) :=
  c6_sentence_break_priority ("ab. cdefghij! klmnopq".toList) 16 0
    (by decide) (by decide) (by decide) (by decide)

/-- Every chunk of `process_documents` carries the filename, title and
metadata extracted from some input document, exactly as `processDoc` builds
them. -/
theorem process_documents_fields (fuel : Nat) (cs ov : Int) :
    ∀ (docs : List PyDict) (cks : List Chunk),
      process_documents fuel docs cs ov = .ok cks →
      ∀ c ∈ cks, ∃ doc ∈ docs,
        c.filename = (pyGet doc "filename").getD (.str "unknown".toList) ∧
        c.title = (pyGet doc "title").getD .null ∧
        c.metadata =
          (if (docMetadata doc).isEmpty then none else some (docMetadata doc)) := by
  intro docs
  induction docs with
  | nil =>
    intro cks h c hc
    simp only [process_documents] at h
    injection h with h
    subst h
    cases hc
  | cons d rest ih =>
    intro cks h c hc
    simp only [process_documents] at h
    cases hpd : processDoc fuel cs ov d with
    | error m => rw [hpd] at h; exact PyResult.noConfusion h
    | timeout => rw [hpd] at h; exact PyResult.noConfusion h
    | ok cks0 =>
      rw [hpd] at h
      cases hrec : process_documents fuel rest cs ov with
      | error m => rw [hrec] at h; exact PyResult.noConfusion h
      | timeout => rw [hrec] at h; exact PyResult.noConfusion h
      | ok more =>
        rw [hrec] at h
        injection h with h
        subst h
        rcases List.mem_append.mp hc with hl | hr
        · refine ⟨d, List.mem_cons_self _ _, ?_⟩
          simp only [processDoc] at hpd
          split at hpd
          · split at hpd
            · next s hs =>
              split at hpd
              · exact PyResult.noConfusion hpd
              · exact PyResult.noConfusion hpd
              · next raws hraws =>
                injection hpd with hpd
                subst hpd
                obtain ⟨r, hrmem, hreq⟩ := List.mem_map.mp hl
                subst hreq
                exact ⟨rfl, rfl, rfl⟩
            · exact PyResult.noConfusion hpd
          · injection hpd with hpd
            subst hpd
            cases hl
        · obtain ⟨doc, hmem, hf⟩ := ih more hrec c hr
          exact ⟨doc, List.mem_cons_of_mem _ hmem, hf⟩

/-- C8: every chunk built from a document carries that document's filename
(default `"unknown"`), its title (null when absent) and, verbatim, the
remaining fields as metadata — stored as absent rather than as an empty
mapping when there are none. -/
theorem c8_metadata_propagation (fuel : Nat) (docs : List PyDict) (cs ov : Int)
    (cks : List Chunk) (c : Chunk)
    (h : process_documents fuel docs cs ov = .ok cks) (hc : c ∈ cks) :
    ∃ doc ∈ docs,
      c.filename = (pyGet doc "filename").getD (.str "unknown".toList) ∧
      c.title = (pyGet doc "title").getD .null ∧
      c.metadata =
        (if (docMetadata doc).isEmpty then none else some (docMetadata doc)) :=
  process_documents_fields fuel cs ov docs cks h c hc

/-- Witness for C8 on a concrete one-document, one-chunk run with a `tags`
metadata field. -/
theorem c8_metadata_propagation_witness :
    ∃ doc ∈ [[("content", Val.str "hi".toList), ("filename", Val.str "a.md".toList),
        ("title", Val.str "T".toList), ("tags", Val.str "x".toList)]],
      Val.str "a.md".toList = (pyGet doc "filename").getD (.str "unknown".toList) ∧
      Val.str "T".toList = (pyGet doc "title").getD .null ∧
      (some [("tags", Val.str "x".toList)] : Option PyDict) =
        (if (docMetadata doc).isEmpty then none else some (docMetadata doc)) :=
  c8_metadata_propagation 3
    [[("content", Val.str "hi".toList), ("filename", Val.str "a.md".toList),
      ("title", Val.str "T".toList), ("tags", Val.str "x".toList)]] 5 1
    [⟨"hi".toList, 0, 2, 0, Val.str "a.md".toList, Val.str "T".toList,
      some [("tags", Val.str "x".toList)]⟩]
    ⟨"hi".toList, 0, 2, 0, Val.str "a.md".toList, Val.str "T".toList,
      some [("tags", Val.str "x".toList)]⟩
    rfl (List.mem_singleton.mpr rfl)

/-- C9 counterexample: with absent metadata, `to_dict` keeps a seventh
`metadata` key (value null) instead of producing exactly the six fixed
keys; and a metadata key literally named `metadata` is deleted after the
merge instead of taking precedence. -/
theorem c9_to_dict_counterexample :
    (Chunk.to_dict ⟨"hi".toList, 0, 2, 0, Val.str "a".toList, Val.null, none⟩).map
        Prod.fst ≠ fixedKeys ∧
      "metadata" ∈ (Chunk.to_dict
        ⟨"hi".toList, 0, 2, 0, Val.str "a".toList, Val.null, none⟩).map Prod.fst ∧
      pyGet (Chunk.to_dict ⟨"x".toList, 0, 1, 0, Val.str "f".toList, Val.null,
        some [("metadata", Val.int 5)]⟩) "metadata" = none :=
  ⟨by decide, by decide, rfl⟩

/-- C9 (amended): `to_dict` produces the six fixed keys followed by every
metadata key that does not collide with a field of `asdict` (in metadata
order), a colliding metadata key overwriting the fixed field's value in
place — except the literal key `metadata`, which is deleted; when metadata
is falsy the mapping instead retains all seven `asdict` keys, with
`metadata` bound to null when the field is absent and to the empty mapping
when it is present but empty. -/
theorem c9_to_dict_amended (c : Chunk) (k : String) (v : Val) (m : PyDict)
    (hm : c.metadata.getD [] = m) (hnd : (m.map Prod.fst).Nodup) :
    c.to_dict.map Prod.fst = toDictKeysSpec c ∧
      (pyGet m k = some v → k ≠ "metadata" → pyGet c.to_dict k = some v) ∧
      (c.metadata = none → pyGet c.to_dict "metadata" = some Val.null) ∧
      (c.metadata = some [] → pyGet c.to_dict "metadata" = some (Val.dict [])) := by
  cases hmd : c.metadata with
  | none =>
    rw [hmd] at hm
    simp only [Option.getD_none] at hm
    subst hm
    refine ⟨?_, ?_, ?_, ?_⟩
    · simp only [Chunk.to_dict, hmd, toDictKeysSpec]
      rfl
    · intro hget
      simp [pyGet] at hget
    · intro _
      simp only [Chunk.to_dict, Chunk.asdict, hmd]
      rfl
    · intro h
      exact Option.noConfusion h
  | some m0 =>
    rw [hmd] at hm
    simp only [Option.getD_some] at hm
    subst hm
    by_cases hme : m0.isEmpty
    · have hm0 : m0 = [] := by
        cases m0
        · rfl
        · simp [List.isEmpty] at hme
      subst hm0
      refine ⟨?_, ?_, ?_, ?_⟩
      · simp only [Chunk.to_dict, hmd, toDictKeysSpec]
        rfl
      · intro hget
        simp [pyGet] at hget
      · intro h
        exact Option.noConfusion h
      · intro _
        simp only [Chunk.to_dict, Chunk.asdict, hmd]
        rfl
    · have hbase : c.asdict.map Prod.fst = fixedKeys ++ ["metadata"] := rfl
      have hto : c.to_dict = pyDel (pyUpdate c.asdict m0) "metadata" := by
        simp only [Chunk.to_dict, hmd]
        rw [if_pos (by simp [hme])]
      refine ⟨?_, ?_, ?_, ?_⟩
      · rw [hto, pyDel_keys, pyUpdate_keys m0 c.asdict hnd, List.filter_append]
        have h1 : (c.asdict.map Prod.fst).filter (fun q => decide (q ≠ "metadata")) =
            fixedKeys := by
          rw [hbase]
          decide
        rw [h1]
        have h2 : ((m0.map Prod.fst).filter
              (fun q => decide (q ∉ c.asdict.map Prod.fst))).filter
                (fun q => decide (q ≠ "metadata")) =
            (m0.map Prod.fst).filter
              (fun q => decide (q ∉ fixedKeys ++ ["metadata"])) := by
          rw [hbase, List.filter_filter]
          apply List.filter_congr
          intro q hq
          by_cases hmem : q ∈ fixedKeys ++ ["metadata"]
          · simp [hmem]
          · have hqm : q ≠ "metadata" := by
              intro he
              exact hmem (by simp [he])
            simp [hmem, hqm]
        rw [h2]
        simp only [toDictKeysSpec, hmd]
        rw [if_neg hme]
      · intro hget hk
        rw [hto, pyGet_pyDel_other _ _ _ hk]
        exact pyGet_pyUpdate m0 c.asdict k v hnd hget
      · intro h
        exact Option.noConfusion h
      · intro h
        injection h with h
        subst h
        simp [List.isEmpty] at hme

/-- Witness for the amended C9 on a chunk carrying a `tags` metadata
field. -/
theorem c9_to_dict_amended_witness :
    (Chunk.to_dict ⟨"hi".toList, 0, 2, 0, Val.str "a.md".toList, Val.str "T".toList,
        some [("tags", Val.str "x".toList)]⟩).map Prod.fst =
      toDictKeysSpec ⟨"hi".toList, 0, 2, 0, Val.str "a.md".toList,
        Val.str "T".toList, some [("tags", Val.str "x".toList)]⟩ ∧
      (pyGet [("tags", Val.str "x".toList)] "tags" = some (Val.str "x".toList) →
        "tags" ≠ "metadata" →
        pyGet (Chunk.to_dict ⟨"hi".toList, 0, 2, 0, Val.str "a.md".toList,
          Val.str "T".toList, some [("tags", Val.str "x".toList)]⟩) "tags" =
            some (Val.str "x".toList)) ∧
      ((some [("tags", Val.str "x".toList)] : Option PyDict) = none →
        pyGet (Chunk.to_dict ⟨"hi".toList, 0, 2, 0, Val.str "a.md".toList,
          Val.str "T".toList, some [("tags", Val.str "x".toList)]⟩) "metadata" =
            some Val.null) ∧
      ((some [("tags", Val.str "x".toList)] : Option PyDict) = some [] →
        pyGet (Chunk.to_dict ⟨"hi".toList, 0, 2, 0, Val.str "a.md".toList,
          Val.str "T".toList, some [("tags", Val.str "x".toList)]⟩) "metadata" =
            some (Val.dict [])) :=
  c9_to_dict_amended
    ⟨"hi".toList, 0, 2, 0, Val.str "a.md".toList, Val.str "T".toList,
      some [("tags", Val.str "x".toList)]⟩
    "tags" (Val.str "x".toList) [("tags", Val.str "x".toList)] rfl (by simp)

end DataChunking
